import Mathlib

/-
Verification development for the bchd character device (src/bchd.c).

The storage engine is a singly linked chain of quantum sets (groups); each
group optionally holds an array of `qset_size` optional quanta (chunks) of
`quantum_size` bytes.  Offsets are resolved as in the C source:
  item     = off / (quantum_size * qset_size)
  qset_pos = off % (quantum_size * qset_size) / quantum_size
  q_pos    = off % (quantum_size * qset_size) % quantum_size
Bytes are modelled as `Nat` (values 0..255 in practice).  kmalloc results
are driven by an explicit oracle of booleans (head of the list decides the
next allocation; an exhausted oracle always succeeds), so both the
always-succeeding runs and allocation-failure runs of the C code are
instances of the same definitions.  Freshly kmalloc-ed chunks have
indeterminate contents in C (no memset); the model fills them with 0 --
no theorem below depends on those bytes.
-/

abbrev Chunk := List Nat

structure BchdQset where
  data : Option (List (Option Chunk))
  deriving DecidableEq

structure BchdDev where
  data : List BchdQset
  quantum_size : Nat
  qset_size : Nat
  size : Nat
  log_pos : Nat
  max_word_len : Nat
  deriving DecidableEq

/-- Module-level default `bchd_quantum_size` (BCHD_QUANTUM). -/
def bchd_quantum_size : Nat := 4000

/-- Module-level default `bchd_qset_size` (BCHD_QSET). -/
def bchd_qset_size : Nat := 1000

/-- Module-level default `bchd_max_word_len` (BCHD_MAX_WORD_LEN). -/
def bchd_max_word_len : Nat := 20

/-- One kmalloc call: the oracle's head decides success; an empty oracle
always succeeds. -/
def kmalloc (oracle : List Bool) : Bool × List Bool :=
  match oracle with
  | [] => (true, [])
  | b :: rest => (b, rest)

/-- The allocation loop inside `bchd_follow`: allocate `m` fresh zeroed
qsets one at a time, stopping at the first failed allocation (the ones
already allocated stay attached, as in the C code). -/
def allocMissing (m : Nat) (oracle : List Bool) :
    List BchdQset × Bool × List Bool :=
  match m with
  | 0 => ([], true, oracle)
  | m + 1 =>
    match kmalloc oracle with
    | (true, o1) =>
      let r := allocMissing m o1
      (⟨none⟩ :: r.1, r.2.1, r.2.2)
    | (false, o1) => ([], false, o1)

/-- `bchd_follow`: walk the chain to index `need - 1`, allocating missing
qsets (including the head) along the way.  Returns the updated chain, a
success flag (false models the C function returning NULL), and the rest of
the allocation oracle.  On success the requested qset is at index
`need - 1` of the returned chain. -/
def bchd_follow_ext (chain : List BchdQset) (need : Nat) (oracle : List Bool) :
    List BchdQset × Bool × List Bool :=
  let r := allocMissing (need - chain.length) oracle
  (chain ++ r.1, r.2.1, r.2.2)

/-- The offset arithmetic shared by `bchd_read`, `bchd_write` and
`bchd_log_word`: list item index, quantum-set index, offset in the
quantum. -/
def resolve (off Q S : Nat) : Nat × Nat × Nat :=
  (off / (Q * S), off % (Q * S) / Q, off % (Q * S) % Q)

/-- `dptr->data` for the qset at chain index `item` (absent entries of a
too-short chain read as a NULL pointer would). -/
def slotArr (chain : List BchdQset) (item : Nat) : Option (List (Option Chunk)) :=
  (chain.getD item ⟨none⟩).data

/-- `dptr->data[qset_pos]`: the chunk stored at (item, qset_pos), if the
slot array and the chunk are both present. -/
def chunkAt (chain : List BchdQset) (item qset_pos : Nat) : Option Chunk :=
  match slotArr chain item with
  | none => none
  | some sl => sl.getD qset_pos none

/-- Overwrite the chunk stored at (item, qset_pos). -/
def setChunk (chain : List BchdQset) (item qset_pos : Nat) (ch : Chunk) :
    List BchdQset :=
  match slotArr chain item with
  | none => chain
  | some sl => chain.set item ⟨some (sl.set qset_pos (some ch))⟩

/-- memcpy of `cnt` bytes from `buf` into `ch` starting at `q_pos`. -/
def memwrite (ch : Chunk) (q_pos : Nat) (buf : List Nat) (cnt : Nat) : Chunk :=
  ch.take q_pos ++ buf.take cnt ++ ch.drop (q_pos + cnt)

/-- The `dptr->data == NULL` branch of `bchd_write`: allocate the slot
array (an array of `S` NULL chunk pointers) if absent. -/
def ensureSlotArr (chain : List BchdQset) (item S : Nat) (oracle : List Bool) :
    List BchdQset × Bool × List Bool :=
  match slotArr chain item with
  | some _ => (chain, true, oracle)
  | none =>
    match kmalloc oracle with
    | (true, o1) => (chain.set item ⟨some (List.replicate S none)⟩, true, o1)
    | (false, o1) => (chain, false, o1)

/-- The `dptr->data[qset_pos] == NULL` branch of `bchd_write`: allocate the
chunk if absent (kmalloc without memset; contents modelled as zeros). -/
def ensureChunk (chain : List BchdQset) (item qset_pos Q : Nat)
    (oracle : List Bool) : List BchdQset × Bool × List Bool :=
  match chunkAt chain item qset_pos with
  | some _ => (chain, true, oracle)
  | none =>
    match kmalloc oracle with
    | (true, o1) => (setChunk chain item qset_pos (List.replicate Q 0), true, o1)
    | (false, o1) => (chain, false, o1)

/-- `bchd_write(filp, buf, count, f_pos)` with `count = buf.length`.
Returns (device, retval, new file position, remaining oracle); retval
`none` models `-ENOMEM` (zero bytes reported written), `some k` models a
successful return of `k` bytes.  The copy into the chunk is clipped to the
remainder of the current quantum; `size` is advanced if the write extends
past the previous end. -/
def bchd_write (dev : BchdDev) (f_pos : Nat) (buf : List Nat)
    (oracle : List Bool) : BchdDev × Option Nat × Nat × List Bool :=
  let Q := dev.quantum_size
  let S := dev.qset_size
  let r := resolve f_pos Q S
  match bchd_follow_ext dev.data (r.1 + 1) oracle with
  | (chain1, false, o1) => ({ dev with data := chain1 }, none, f_pos, o1)
  | (chain1, true, o1) =>
    match ensureSlotArr chain1 r.1 S o1 with
    | (chain2, false, o2) => ({ dev with data := chain2 }, none, f_pos, o2)
    | (chain2, true, o2) =>
      match ensureChunk chain2 r.1 r.2.1 Q o2 with
      | (chain3, false, o3) => ({ dev with data := chain3 }, none, f_pos, o3)
      | (chain3, true, o3) =>
        let cnt := min buf.length (Q - r.2.2)
        let ch := (chunkAt chain3 r.1 r.2.1).getD []
        let chain4 := setChunk chain3 r.1 r.2.1 (memwrite ch r.2.2 buf cnt)
        let pos2 := f_pos + cnt
        ({ dev with data := chain4, size := max dev.size pos2 },
          some cnt, pos2, o3)

/-- `bchd_read(filp, buf, count, f_pos)`.  Returns (device, bytes read,
new file position, remaining oracle).  An empty byte list with unchanged
position models a 0 return (reading past `size`, or a hole).  Note that
`bchd_read` also calls `bchd_follow`, so it too can extend the chain. -/
def bchd_read (dev : BchdDev) (f_pos : Nat) (count : Nat)
    (oracle : List Bool) : BchdDev × List Nat × Nat × List Bool :=
  let Q := dev.quantum_size
  let S := dev.qset_size
  if dev.size ≤ f_pos then (dev, [], f_pos, oracle)
  else
    let count1 := if f_pos + count > dev.size then dev.size - f_pos else count
    let r := resolve f_pos Q S
    match bchd_follow_ext dev.data (r.1 + 1) oracle with
    | (chain1, false, o1) => ({ dev with data := chain1 }, [], f_pos, o1)
    | (chain1, true, o1) =>
      match chunkAt chain1 r.1 r.2.1 with
      | none => ({ dev with data := chain1 }, [], f_pos, o1)
      | some ch =>
        let count2 := if count1 > Q - r.2.2 then Q - r.2.2 else count1
        ({ dev with data := chain1 }, (ch.drop r.2.2).take count2,
          f_pos + count2, o1)

/-- `bchd_trim`: free the whole chain, reset `size` and `log_pos` to 0 and
the quantum/qset sizes to the module defaults (`max_word_len` is not
touched). -/
def bchd_trim (dev : BchdDev) : BchdDev :=
  { dev with
    data := []
    size := 0
    quantum_size := bchd_quantum_size
    qset_size := bchd_qset_size
    log_pos := 0 }

/-- The device as set up by `bchd_init`. -/
def bchd_init : BchdDev :=
  { data := []
    quantum_size := bchd_quantum_size
    qset_size := bchd_qset_size
    size := 0
    log_pos := 0
    max_word_len := bchd_max_word_len }

/-- The value of the C `int c = *((char *) ...)`: a byte read through a
signed char. -/
def toSigned (b : Nat) : Int :=
  if b < 128 then (b : Int) else (b : Int) - 256

/-- The acceptable-character test of `bchd_log_word`, exactly as written
in the source: `c >= ' ' || c <= '~'`. -/
def acceptable (c : Int) : Bool :=
  decide (32 ≤ c) || decide (c ≤ 126)

/-- The word-scanning loop of `bchd_log_word`: starting at chunk offset
`pos` with at most `fuel` iterations (`fuel = max_cnt - 1` at the call
site), build the word buffer contents and count how often `log_pos` is
incremented.  A space or newline ends the word: a trailing space is stored
and the cursor consumes the separator. -/
def scanWord (ch : Chunk) (pos : Nat) (fuel : Nat) : List Nat × Nat :=
  match fuel with
  | 0 => ([], 0)
  | f + 1 =>
    let c := toSigned (ch.getD pos 0)
    if c = 32 ∨ c = 10 then ([32], 1)
    else if acceptable c then
      let r := scanWord ch (pos + 1) f
      (ch.getD pos 0 :: r.1, r.2 + 1)
    else
      let r := scanWord ch (pos + 1) f
      (r.1, r.2)

/-- What a tokenizer tick printed: the no-data diagnostic, a word (buffer
contents before the terminating NUL), or nothing (the skipped-tick exit
path). -/
inductive TickEmit where
  | diag : TickEmit
  | word : List Nat → TickEmit
  | skip : TickEmit
  deriving DecidableEq

structure TickResult where
  dev : BchdDev
  emit : TickEmit
  rescheduled : Bool
  oracle : List Bool
  deriving DecidableEq

/-- One tokenizer tick, `bchd_log_word` in the source: wrap the cursor
when within one byte of `size`, clip the scan budget to the stored data
and to the current quantum, scan one word and emit it, then reschedule.
The exit paths that `goto out` before the `queue_delayed_work` call
(absent qset / slot array / chunk) report `rescheduled = false`. -/
def bchd_log_word (dev : BchdDev) (oracle : List Bool) : TickResult :=
  let Q := dev.quantum_size
  let S := dev.qset_size
  if dev.size = 0 then
    { dev := dev
      emit := TickEmit.diag
      rescheduled := true
      oracle := oracle }
  else
    let lp0 := if dev.log_pos + 1 ≥ dev.size then 0 else dev.log_pos
    let mc1 := if lp0 + dev.max_word_len > dev.size then dev.size - lp0
               else dev.max_word_len
    let r := resolve lp0 Q S
    match bchd_follow_ext dev.data (r.1 + 1) oracle with
    | (chain1, false, o1) =>
      { dev := { dev with data := chain1, log_pos := lp0 }
        emit := TickEmit.skip
        rescheduled := false
        oracle := o1 }
    | (chain1, true, o1) =>
      match chunkAt chain1 r.1 r.2.1 with
      | none =>
        { dev := { dev with data := chain1, log_pos := lp0 }
          emit := TickEmit.skip
          rescheduled := false
          oracle := o1 }
      | some ch =>
        let mc2 := if mc1 > Q - r.2.2 then Q - r.2.2 else mc1
        let sres := scanWord ch r.2.2 (mc2 - 1)
        { dev := { dev with data := chain1, log_pos := lp0 + sres.2 }
          emit := TickEmit.word sres.1
          rescheduled := true
          oracle := o1 }

/-- The operations that can touch the device state. -/
inductive Op where
  | write (pos : Nat) (buf : List Nat) (oracle : List Bool)
  | read (pos count : Nat) (oracle : List Bool)
  | trim
  | tick (oracle : List Bool)
  deriving DecidableEq

def applyOp (dev : BchdDev) : Op → BchdDev
  | Op.write pos buf oracle => (bchd_write dev pos buf oracle).1
  | Op.read pos count oracle => (bchd_read dev pos count oracle).1
  | Op.trim => bchd_trim dev
  | Op.tick oracle => (bchd_log_word dev oracle).dev

def applyOps (dev : BchdDev) (ops : List Op) : BchdDev :=
  ops.foldl applyOp dev

def Op.isWrite : Op → Bool
  | Op.write _ _ _ => true
  | _ => false

/-- Structural well-formedness of a chunk: allocated chunks hold exactly
`quantum_size` bytes (kmalloc(quantum_size) in the source). -/
def chunkOk (Q : Nat) : Option Chunk → Bool
  | none => true
  | some ch => ch.length == Q

/-- Structural well-formedness of a qset: an allocated slot array has
exactly `qset_size` entries and well-formed chunks. -/
def qsetOk (Q S : Nat) (qs : BchdQset) : Bool :=
  match qs.data with
  | none => true
  | some sl => sl.length == S && sl.all (chunkOk Q)

/-- Structural well-formedness of the whole device. -/
def wfB (dev : BchdDev) : Bool :=
  dev.data.all (qsetOk dev.quantum_size dev.qset_size)

/-- The byte logically stored at offset `off`, if its chunk is present. -/
def storeGet (dev : BchdDev) (off : Nat) : Option Nat :=
  let r := resolve off dev.quantum_size dev.qset_size
  match chunkAt dev.data r.1 r.2.1 with
  | none => none
  | some ch => some (ch.getD r.2.2 0)

/-- Successive bounded writes: each call passes the not-yet-written rest
of the buffer and starts where the previous call left off (the usual
userspace write loop).  `fuel ≥ buf.length` suffices for the loop to run
to completion. -/
def writeAll (fuel : Nat) (dev : BchdDev) (pos : Nat) (buf : List Nat) :
    BchdDev :=
  match fuel with
  | 0 => dev
  | fuel + 1 =>
    match buf with
    | [] => dev
    | _ :: _ =>
      let r := bchd_write dev pos buf []
      writeAll fuel r.1 r.2.2.1 (buf.drop ((r.2.1).getD 0))

/-- Successive bounded reads: keep asking for the remaining bytes at the
position the previous call advanced to, until `want` bytes have been read
or a call returns no bytes. -/
def readAll (fuel : Nat) (dev : BchdDev) (pos : Nat) (want : Nat) :
    List Nat × BchdDev :=
  match fuel with
  | 0 => ([], dev)
  | fuel + 1 =>
    if want = 0 then ([], dev)
    else
      let r := bchd_read dev pos want []
      if r.2.1.length = 0 then ([], r.1)
      else
        let rest := readAll fuel r.1 r.2.2.1 (want - r.2.1.length)
        (r.2.1 ++ rest.1, rest.2)

/-- The scan loop as the spec words it (every byte that is not a space or
newline is word content); for comparison with `scanWord`, whose
acceptable-character filter the spec calls a no-op. -/
def scanWordSpec (ch : Chunk) (pos : Nat) (fuel : Nat) : List Nat × Nat :=
  match fuel with
  | 0 => ([], 0)
  | f + 1 =>
    let c := toSigned (ch.getD pos 0)
    if c = 32 ∨ c = 10 then ([32], 1)
    else
      let r := scanWordSpec ch (pos + 1) f
      (ch.getD pos 0 :: r.1, r.2 + 1)

/- ### Generic list helpers -/

theorem getD_all_default {α : Type} (l : List α) (d : α)
    (h : ∀ x ∈ l, x = d) (i : Nat) : l.getD i d = d := by
  induction l generalizing i with
  | nil => cases i <;> rfl
  | cons a l ih =>
    cases i with
    | zero => exact h a (List.mem_cons_self a l)
    | succ j =>
      simp only [List.getD_cons_succ]
      exact ih (fun x hx => h x (List.mem_cons_of_mem a hx)) j

theorem getD_append_default {α : Type} (l1 l2 : List α) (d : α)
    (h : ∀ x ∈ l2, x = d) (i : Nat) : (l1 ++ l2).getD i d = l1.getD i d := by
  induction l1 generalizing i with
  | nil => simpa using getD_all_default l2 d h i
  | cons a l ih =>
    cases i with
    | zero => rfl
    | succ j => simpa using ih j

theorem getD_set_self {α : Type} (l : List α) (i : Nat) (a d : α)
    (h : i < l.length) : (l.set i a).getD i d = a := by
  simp [List.getD_eq_getElem?_getD, List.getElem?_set_self h]

theorem getD_set_ne {α : Type} (l : List α) (i j : Nat) (a d : α)
    (h : i ≠ j) : (l.set i a).getD j d = l.getD j d := by
  simp [List.getD_eq_getElem?_getD, List.getElem?_set_ne h]

theorem getD_default_of_le {α : Type} (l : List α) (i : Nat) (d : α)
    (h : l.length ≤ i) : l.getD i d = d := by
  simp [List.getD_eq_getElem?_getD, List.getElem?_eq_none h]

theorem getD_drop (l : List Nat) (k j : Nat) :
    (l.drop k).getD j 0 = l.getD (k + j) 0 := by
  simp [List.getD_eq_getElem?_getD, List.getElem?_drop]

theorem getD_mem_of_lt {α : Type} (l : List α) (i : Nat) (d : α)
    (h : i < l.length) : l.getD i d ∈ l := by
  simp only [List.getD_eq_getElem?_getD, List.getElem?_eq_getElem h,
    Option.getD_some]
  exact l.getElem_mem h

theorem all_set {α : Type} (l : List α) (p : α → Bool) (i : Nat) (x : α)
    (hx : p x = true) (hl : l.all p = true) : (l.set i x).all p = true := by
  rw [List.all_eq_true] at hl ⊢
  intro y hy
  rcases List.mem_or_eq_of_mem_set hy with h | h
  · exact hl y h
  · rw [h]; exact hx

theorem range_map_getD (l : List Nat) :
    (List.range l.length).map (fun i => l.getD i 0) = l := by
  apply List.ext_getElem
  · simp
  · intro i h1 h2
    simp [List.getD_eq_getElem?_getD, List.getElem?_eq_getElem h2]

theorem drop_take_eq_range_map (ch : Chunk) (qp c : Nat)
    (h : qp + c ≤ ch.length) :
    (ch.drop qp).take c = (List.range c).map (fun i => ch.getD (qp + i) 0) := by
  apply List.ext_getElem
  · simp; omega
  · intro i h1 h2
    have hc : i < c := by simp at h2; omega
    have hlen : qp + i < ch.length := by omega
    simp [List.getD_eq_getElem?_getD, List.getElem?_eq_getElem hlen]

/- ### Address arithmetic -/

theorem resolve_eq (off Q S : Nat) :
    resolve off Q S = (off / Q / S, off / Q % S, off % Q) := by
  unfold resolve
  rw [Nat.div_div_eq_div_mul, Nat.mod_mul_right_div_self,
    Nat.mod_mod_of_dvd off ⟨S, rfl⟩]

theorem resolve_shift (off i Q S : Nat) (h : off % Q + i < Q) :
    resolve (off + i) Q S = (off / Q / S, off / Q % S, off % Q + i) := by
  have hQ : 0 < Q := by omega
  have hdecomp : off + i = (off % Q + i) + Q * (off / Q) := by
    conv_lhs => rw [← Nat.div_add_mod off Q]
    omega
  have hdiv : (off + i) / Q = off / Q := by
    rw [hdecomp, Nat.add_mul_div_left _ _ hQ, Nat.div_eq_of_lt h, Nat.zero_add]
  have hmod : (off + i) % Q = off % Q + i := by
    rw [hdecomp, Nat.add_mul_mod_self_left, Nat.mod_eq_of_lt h]
  rw [resolve_eq, hdiv, hmod]

/- ### bchd_follow -/

theorem allocMissing_nil (m : Nat) :
    allocMissing m [] = (List.replicate m (⟨none⟩ : BchdQset), true, []) := by
  induction m with
  | zero => rfl
  | succ m ih => simp [allocMissing, kmalloc, ih, List.replicate_succ]

theorem allocMissing_mem (m : Nat) (o : List Bool) :
    ∀ x ∈ (allocMissing m o).1, x = (⟨none⟩ : BchdQset) := by
  induction m generalizing o with
  | zero => simp [allocMissing]
  | succ m ih =>
    intro x hx
    unfold allocMissing at hx
    rcases hk : kmalloc o with ⟨b, o1⟩
    rw [hk] at hx
    cases b with
    | true =>
      simp only at hx
      rcases List.mem_cons.mp hx with h | h
      · exact h
      · exact ih o1 x h
    | false => simp at hx

theorem bchd_follow_ext_nil (chain : List BchdQset) (need : Nat) :
    bchd_follow_ext chain need [] =
      (chain ++ List.replicate (need - chain.length) ⟨none⟩, true, []) := by
  simp [bchd_follow_ext, allocMissing_nil]

theorem bchd_follow_ext_fst (chain : List BchdQset) (need : Nat)
    (o : List Bool) :
    (bchd_follow_ext chain need o).1 =
      chain ++ (allocMissing (need - chain.length) o).1 := rfl

/- ### chunkAt / setChunk -/

theorem chunkAt_append_default (chain l2 : List BchdQset)
    (h : ∀ x ∈ l2, x = (⟨none⟩ : BchdQset)) (it qs : Nat) :
    chunkAt (chain ++ l2) it qs = chunkAt chain it qs := by
  unfold chunkAt slotArr
  rw [getD_append_default chain l2 ⟨none⟩ h it]

theorem chunkAt_replicate_append (chain : List BchdQset) (m it qs : Nat) :
    chunkAt (chain ++ List.replicate m ⟨none⟩) it qs = chunkAt chain it qs := by
  apply chunkAt_append_default
  intro x hx
  exact (List.eq_of_mem_replicate hx)

theorem slotArr_some_lt (chain : List BchdQset) (it : Nat)
    (sl : List (Option Chunk)) (h : slotArr chain it = some sl) :
    it < chain.length := by
  by_contra hge
  unfold slotArr at h
  rw [getD_default_of_le chain it ⟨none⟩ (by omega)] at h
  simp at h

theorem chunkAt_some_slotArr (chain : List BchdQset) (it qs : Nat)
    (ch : Chunk) (h : chunkAt chain it qs = some ch) :
    ∃ sl, slotArr chain it = some sl ∧ sl.getD qs none = some ch ∧
      qs < sl.length := by
  unfold chunkAt at h
  rcases hs : slotArr chain it with _ | sl
  · rw [hs] at h; simp at h
  · rw [hs] at h
    simp only at h
    refine ⟨sl, rfl, h, ?_⟩
    by_contra hge
    rw [getD_default_of_le sl qs none (by omega)] at h
    simp at h

theorem chunkAt_setChunk_same (chain : List BchdQset) (it qs : Nat)
    (ch : Chunk) (sl : List (Option Chunk)) (hs : slotArr chain it = some sl)
    (hqs : qs < sl.length) :
    chunkAt (setChunk chain it qs ch) it qs = some ch := by
  have hit : it < chain.length := slotArr_some_lt chain it sl hs
  unfold setChunk
  rw [hs]
  unfold chunkAt slotArr
  rw [getD_set_self chain it _ ⟨none⟩ hit]
  simp only
  rw [getD_set_self sl qs _ none hqs]

theorem chunkAt_setChunk_other (chain : List BchdQset) (it qs : Nat)
    (ch : Chunk) (it2 qs2 : Nat) (h : ¬(it2 = it ∧ qs2 = qs)) :
    chunkAt (setChunk chain it qs ch) it2 qs2 = chunkAt chain it2 qs2 := by
  unfold setChunk
  rcases hs : slotArr chain it with _ | sl
  · rfl
  · by_cases hit : it2 = it
    · subst hit
      have hqs : ¬(qs2 = qs) := fun hq => h ⟨rfl, hq⟩
      have hlt : it2 < chain.length := slotArr_some_lt chain it2 sl hs
      unfold slotArr at hs
      unfold chunkAt slotArr
      rw [getD_set_self chain it2 _ ⟨none⟩ hlt]
      simp only
      rw [hs]
      simp only
      rw [getD_set_ne sl qs qs2 _ none (fun hq => hqs hq.symm)]
    · unfold chunkAt slotArr
      rw [getD_set_ne chain it it2 _ ⟨none⟩ (fun hq => hit hq.symm)]

theorem setChunk_length (chain : List BchdQset) (it qs : Nat) (ch : Chunk) :
    (setChunk chain it qs ch).length = chain.length := by
  unfold setChunk
  rcases slotArr chain it with _ | sl <;> simp

/- ### memwrite -/

theorem memwrite_length (ch : Chunk) (qp : Nat) (buf : List Nat) (cnt : Nat)
    (h1 : qp + cnt ≤ ch.length) (h2 : cnt ≤ buf.length) :
    (memwrite ch qp buf cnt).length = ch.length := by
  simp only [memwrite, List.length_append, List.length_take, List.length_drop]
  omega

theorem memwrite_getD (ch : Chunk) (qp : Nat) (buf : List Nat) (cnt j : Nat)
    (h1 : qp + cnt ≤ ch.length) (h2 : cnt ≤ buf.length) :
    (memwrite ch qp buf cnt).getD j 0 =
      if j < qp then ch.getD j 0
      else if j < qp + cnt then buf.getD (j - qp) 0
      else ch.getD j 0 := by
  have htq : (ch.take qp).length = qp := by simp; omega
  have htb : (buf.take cnt).length = cnt := by simp; omega
  simp only [memwrite, List.getD_eq_getElem?_getD, List.append_assoc]
  by_cases hj1 : j < qp
  · rw [List.getElem?_append_left (by omega), List.getElem?_take_of_lt hj1]
    simp [hj1]
  · rw [List.getElem?_append_right (by omega), htq]
    by_cases hj2 : j < qp + cnt
    · rw [List.getElem?_append_left (by rw [htb]; omega),
        List.getElem?_take_of_lt (by omega)]
      simp [hj1, hj2]
    · rw [List.getElem?_append_right (by rw [htb]; omega), htb,
        List.getElem?_drop]
      have : qp + cnt + (j - qp - cnt) = j := by omega
      rw [this]
      simp [hj1, hj2]

/- ### ensureSlotArr / ensureChunk -/

theorem ensureSlotArr_some (chain : List BchdQset) (it S : Nat)
    (o : List Bool) (sl : List (Option Chunk))
    (h : slotArr chain it = some sl) :
    ensureSlotArr chain it S o = (chain, true, o) := by
  unfold ensureSlotArr
  rw [h]

theorem ensureSlotArr_none_nil (chain : List BchdQset) (it S : Nat)
    (h : slotArr chain it = none) :
    ensureSlotArr chain it S [] =
      (chain.set it ⟨some (List.replicate S none)⟩, true, []) := by
  unfold ensureSlotArr
  rw [h]
  rfl

theorem ensureChunk_some (chain : List BchdQset) (it qs Q : Nat)
    (o : List Bool) (ch : Chunk) (h : chunkAt chain it qs = some ch) :
    ensureChunk chain it qs Q o = (chain, true, o) := by
  unfold ensureChunk
  rw [h]

theorem ensureChunk_none_nil (chain : List BchdQset) (it qs Q : Nat)
    (h : chunkAt chain it qs = none) :
    ensureChunk chain it qs Q [] =
      (setChunk chain it qs (List.replicate Q 0), true, []) := by
  unfold ensureChunk
  rw [h]
  rfl

/- ### Well-formedness -/

theorem wf_chunkAt_length (Q S : Nat) (chain : List BchdQset)
    (hwf : chain.all (qsetOk Q S) = true) (it qs : Nat) (ch : Chunk)
    (h : chunkAt chain it qs = some ch) : ch.length = Q := by
  rcases chunkAt_some_slotArr chain it qs ch h with ⟨sl, hsl, hget, hqs⟩
  have hit : it < chain.length := slotArr_some_lt chain it sl hsl
  have hmem : chain.getD it ⟨none⟩ ∈ chain := getD_mem_of_lt chain it ⟨none⟩ hit
  have hok : qsetOk Q S (chain.getD it ⟨none⟩) = true :=
    (List.all_eq_true.mp hwf) _ hmem
  unfold qsetOk at hok
  unfold slotArr at hsl
  rw [hsl] at hok
  simp only [Bool.and_eq_true] at hok
  have hchmem : (some ch) ∈ sl := by
    rw [← hget]
    exact getD_mem_of_lt sl qs none hqs
  have hco : chunkOk Q (some ch) = true :=
    (List.all_eq_true.mp hok.2) _ hchmem
  simp only [chunkOk, beq_iff_eq] at hco
  exact hco

theorem wf_slotArr_length (Q S : Nat) (chain : List BchdQset)
    (hwf : chain.all (qsetOk Q S) = true) (it : Nat)
    (sl : List (Option Chunk)) (h : slotArr chain it = some sl) :
    sl.length = S := by
  have hit : it < chain.length := slotArr_some_lt chain it sl h
  have hmem : chain.getD it ⟨none⟩ ∈ chain := getD_mem_of_lt chain it ⟨none⟩ hit
  have hok : qsetOk Q S (chain.getD it ⟨none⟩) = true :=
    (List.all_eq_true.mp hwf) _ hmem
  unfold qsetOk at hok
  unfold slotArr at h
  rw [h] at hok
  simp only [Bool.and_eq_true] at hok
  have h1 := hok.1
  simp only [beq_iff_eq] at h1
  exact h1

theorem wf_append_replicate (Q S : Nat) (chain : List BchdQset) (m : Nat)
    (hwf : chain.all (qsetOk Q S) = true) :
    (chain ++ List.replicate m (⟨none⟩ : BchdQset)).all (qsetOk Q S) = true := by
  rw [List.all_eq_true]
  intro x hx
  rcases List.mem_append.mp hx with h | h
  · exact List.all_eq_true.mp hwf x h
  · rw [List.eq_of_mem_replicate h]
    rfl

theorem wf_set_fresh_slotArr (Q S : Nat) (chain : List BchdQset) (it : Nat)
    (hwf : chain.all (qsetOk Q S) = true) :
    (chain.set it ⟨some (List.replicate S none)⟩).all (qsetOk Q S) = true := by
  apply all_set chain (qsetOk Q S) it _ _ hwf
  unfold qsetOk
  simp only
  rw [Bool.and_eq_true]
  refine ⟨by simp, ?_⟩
  rw [List.all_eq_true]
  intro x hx
  rw [List.eq_of_mem_replicate hx]
  rfl

theorem wf_setChunk (Q S : Nat) (chain : List BchdQset) (it qs : Nat)
    (ch : Chunk) (hch : ch.length = Q)
    (hwf : chain.all (qsetOk Q S) = true) :
    (setChunk chain it qs ch).all (qsetOk Q S) = true := by
  unfold setChunk
  rcases hs : slotArr chain it with _ | sl
  · exact hwf
  · apply all_set chain (qsetOk Q S) it _ _ hwf
    have hit : it < chain.length := slotArr_some_lt chain it sl hs
    have hmem : chain.getD it ⟨none⟩ ∈ chain := getD_mem_of_lt chain it ⟨none⟩ hit
    have hok : qsetOk Q S (chain.getD it ⟨none⟩) = true :=
      (List.all_eq_true.mp hwf) _ hmem
    unfold qsetOk at hok ⊢
    unfold slotArr at hs
    rw [hs] at hok
    simp only [Bool.and_eq_true] at hok
    simp only [List.length_set, Bool.and_eq_true]
    refine ⟨hok.1, ?_⟩
    apply all_set sl (chunkOk Q) qs _ _ hok.2
    unfold chunkOk
    simp [hch]

theorem slotArr_append_default (chain l2 : List BchdQset)
    (h : ∀ x ∈ l2, x = (⟨none⟩ : BchdQset)) (it : Nat) :
    slotArr (chain ++ l2) it = slotArr chain it := by
  unfold slotArr
  rw [getD_append_default chain l2 ⟨none⟩ h it]

theorem bchd_write_nil_eq (dev : BchdDev) (pos : Nat) (buf : List Nat)
    (k : Nat)
    (hk : k = min buf.length (dev.quantum_size - pos % dev.quantum_size)) :
    ∃ dev2, bchd_write dev pos buf [] = (dev2, some k, pos + k, []) ∧
      dev2.size = max dev.size (pos + k) ∧
      dev2.log_pos = dev.log_pos ∧
      dev2.quantum_size = dev.quantum_size ∧
      dev2.qset_size = dev.qset_size ∧
      dev2.max_word_len = dev.max_word_len := by
  subst hk
  have hres := resolve_eq pos dev.quantum_size dev.qset_size
  have hmem : ∀ x ∈ List.replicate (pos / dev.quantum_size / dev.qset_size + 1
      - dev.data.length) (⟨none⟩ : BchdQset), x = (⟨none⟩ : BchdQset) :=
    fun x hx => List.eq_of_mem_replicate hx
  simp only [bchd_write, hres, bchd_follow_ext_nil]
  set it := pos / dev.quantum_size / dev.qset_size with hit
  set qs := pos / dev.quantum_size % dev.qset_size with hqs
  set chain1 := dev.data ++ List.replicate (it + 1 - dev.data.length)
    (⟨none⟩ : BchdQset) with hchain1
  have hlen1 : it < chain1.length := by
    rw [hchain1]
    simp only [List.length_append, List.length_replicate]
    omega
  rcases hA : slotArr dev.data it with _ | sl0
  · have hA1 : slotArr chain1 it = none := by
      rw [hchain1, slotArr_append_default _ _ hmem, hA]
    simp only [ensureSlotArr_none_nil chain1 it dev.qset_size hA1]
    have hB1 : chunkAt (chain1.set it ⟨some (List.replicate dev.qset_size none)⟩)
        it qs = none := by
      unfold chunkAt slotArr
      rw [getD_set_self chain1 it _ ⟨none⟩ hlen1]
      simp only
      exact getD_all_default _ none (fun x hx => List.eq_of_mem_replicate hx) qs
    simp only [ensureChunk_none_nil _ it qs dev.quantum_size hB1]
    exact ⟨_, rfl, rfl, rfl, rfl, rfl, rfl⟩
  · have hA1 : slotArr chain1 it = some sl0 := by
      rw [hchain1, slotArr_append_default _ _ hmem, hA]
    simp only [ensureSlotArr_some chain1 it dev.qset_size [] sl0 hA1]
    rcases hB : chunkAt chain1 it qs with _ | ch0
    · simp only [ensureChunk_none_nil _ it qs dev.quantum_size hB]
      exact ⟨_, rfl, rfl, rfl, rfl, rfl, rfl⟩
    · simp only [ensureChunk_some _ it qs dev.quantum_size [] ch0 hB]
      exact ⟨_, rfl, rfl, rfl, rfl, rfl, rfl⟩

theorem chunkAt_set_fresh_arr (chain : List BchdQset) (it S : Nat)
    (h : slotArr chain it = none) (hlt : it < chain.length) (it2 qs2 : Nat) :
    chunkAt (chain.set it ⟨some (List.replicate S none)⟩) it2 qs2 =
      chunkAt chain it2 qs2 := by
  by_cases hi : it2 = it
  · subst hi
    unfold chunkAt
    rw [h]
    unfold slotArr
    rw [getD_set_self _ _ _ _ hlt]
    simp only
    rw [getD_all_default _ none (fun x hx => List.eq_of_mem_replicate hx) qs2]
  · unfold chunkAt slotArr
    rw [getD_set_ne _ _ _ _ _ (fun he => hi he.symm)]

theorem slotArr_set_fresh (chain : List BchdQset) (it S : Nat)
    (hlt : it < chain.length) :
    slotArr (chain.set it ⟨some (List.replicate S none)⟩) it =
      some (List.replicate S none) := by
  unfold slotArr
  rw [getD_set_self _ _ _ _ hlt]

theorem slotArr_setChunk_same (chain : List BchdQset) (it qs : Nat)
    (ch : Chunk) (sl : List (Option Chunk)) (hs : slotArr chain it = some sl) :
    slotArr (setChunk chain it qs ch) it = some (sl.set qs (some ch)) := by
  have hlt := slotArr_some_lt chain it sl hs
  unfold setChunk
  rw [hs]
  unfold slotArr
  rw [getD_set_self _ _ _ _ hlt]

theorem bchd_write_nil_char (dev : BchdDev) (pos : Nat) (buf : List Nat)
    (k : Nat)
    (hk : k = min buf.length (dev.quantum_size - pos % dev.quantum_size))
    (hS : 0 < dev.qset_size) (hwf : wfB dev = true) :
    ∃ chain3 sl ch,
      bchd_write dev pos buf [] =
        ({ dev with
           data := setChunk chain3 (pos / dev.quantum_size / dev.qset_size)
             (pos / dev.quantum_size % dev.qset_size)
             (memwrite ch (pos % dev.quantum_size) buf k)
           size := max dev.size (pos + k) }, some k, pos + k, []) ∧
      slotArr chain3 (pos / dev.quantum_size / dev.qset_size) = some sl ∧
      pos / dev.quantum_size % dev.qset_size < sl.length ∧
      chunkAt chain3 (pos / dev.quantum_size / dev.qset_size)
        (pos / dev.quantum_size % dev.qset_size) = some ch ∧
      ch.length = dev.quantum_size ∧
      (∀ v, chunkAt dev.data (pos / dev.quantum_size / dev.qset_size)
        (pos / dev.quantum_size % dev.qset_size) = some v → ch = v) ∧
      (∀ it2 qs2, ¬(it2 = pos / dev.quantum_size / dev.qset_size ∧
          qs2 = pos / dev.quantum_size % dev.qset_size) →
        chunkAt chain3 it2 qs2 = chunkAt dev.data it2 qs2) ∧
      chain3.all (qsetOk dev.quantum_size dev.qset_size) = true := by
  subst hk
  have hres := resolve_eq pos dev.quantum_size dev.qset_size
  have hmem : ∀ x ∈ List.replicate (pos / dev.quantum_size / dev.qset_size + 1
      - dev.data.length) (⟨none⟩ : BchdQset), x = (⟨none⟩ : BchdQset) :=
    fun x hx => List.eq_of_mem_replicate hx
  unfold wfB at hwf
  simp only [bchd_write, hres, bchd_follow_ext_nil]
  set it := pos / dev.quantum_size / dev.qset_size with hit
  set qs := pos / dev.quantum_size % dev.qset_size with hqs
  set chain1 := dev.data ++ List.replicate (it + 1 - dev.data.length)
    (⟨none⟩ : BchdQset) with hchain1
  have hqslt : qs < dev.qset_size := Nat.mod_lt _ hS
  have hlen1 : it < chain1.length := by
    rw [hchain1]
    simp only [List.length_append, List.length_replicate]
    omega
  have hwf1 : chain1.all (qsetOk dev.quantum_size dev.qset_size) = true := by
    rw [hchain1]
    exact wf_append_replicate _ _ _ _ hwf
  have hCeq : ∀ it2 qs2, chunkAt chain1 it2 qs2 = chunkAt dev.data it2 qs2 := by
    intro it2 qs2
    rw [hchain1]
    exact chunkAt_replicate_append _ _ it2 qs2
  rcases hA : slotArr dev.data it with _ | sl0
  · -- slot array absent: allocate it, then allocate the chunk
    have hA1 : slotArr chain1 it = none := by
      rw [hchain1, slotArr_append_default _ _ hmem, hA]
    simp only [ensureSlotArr_none_nil chain1 it dev.qset_size hA1]
    set chain2 := chain1.set it ⟨some (List.replicate dev.qset_size none)⟩
      with hchain2
    have hC2 : ∀ it2 qs2, chunkAt chain2 it2 qs2 = chunkAt chain1 it2 qs2 := by
      intro it2 qs2
      rw [hchain2]
      exact chunkAt_set_fresh_arr chain1 it dev.qset_size hA1 hlen1 it2 qs2
    have hB1 : chunkAt chain2 it qs = none := by
      rw [hC2]
      unfold chunkAt
      rw [hA1]
    simp only [ensureChunk_none_nil chain2 it qs dev.quantum_size hB1]
    have hs2 : slotArr chain2 it = some (List.replicate dev.qset_size none) := by
      rw [hchain2]
      exact slotArr_set_fresh chain1 it dev.qset_size hlen1
    have hqs2 : qs < (List.replicate dev.qset_size (none : Option Chunk)).length := by
      simpa using hqslt
    have hch3 : chunkAt (setChunk chain2 it qs
        (List.replicate dev.quantum_size 0)) it qs =
        some (List.replicate dev.quantum_size 0) :=
      chunkAt_setChunk_same chain2 it qs _ _ hs2 hqs2
    refine ⟨setChunk chain2 it qs (List.replicate dev.quantum_size 0),
      (List.replicate dev.qset_size none).set qs
        (some (List.replicate dev.quantum_size 0)),
      List.replicate dev.quantum_size 0, ?_, ?_, ?_, hch3, by simp, ?_, ?_, ?_⟩
    · simp only [hch3, Option.getD_some]
    · exact slotArr_setChunk_same chain2 it qs _ _ hs2
    · simpa using hqslt
    · intro v hv
      unfold chunkAt at hv
      rw [hA] at hv
      simp at hv
    · intro it2 qs2 hne
      rw [chunkAt_setChunk_other chain2 it qs _ it2 qs2 hne, hC2, hCeq]
    · apply wf_setChunk _ _ _ _ _ _ (by simp)
      rw [hchain2]
      exact wf_set_fresh_slotArr _ _ chain1 it hwf1
  · -- slot array present
    have hA1 : slotArr chain1 it = some sl0 := by
      rw [hchain1, slotArr_append_default _ _ hmem, hA]
    have hsl0len : sl0.length = dev.qset_size :=
      wf_slotArr_length _ _ chain1 hwf1 it sl0 hA1
    simp only [ensureSlotArr_some chain1 it dev.qset_size [] sl0 hA1]
    rcases hB : chunkAt chain1 it qs with _ | ch0
    · -- chunk absent: allocate it
      simp only [ensureChunk_none_nil chain1 it qs dev.quantum_size hB]
      have hqs0 : qs < sl0.length := by omega
      have hch3 : chunkAt (setChunk chain1 it qs
          (List.replicate dev.quantum_size 0)) it qs =
          some (List.replicate dev.quantum_size 0) :=
        chunkAt_setChunk_same chain1 it qs _ _ hA1 hqs0
      refine ⟨setChunk chain1 it qs (List.replicate dev.quantum_size 0),
        sl0.set qs (some (List.replicate dev.quantum_size 0)),
        List.replicate dev.quantum_size 0, ?_, ?_, ?_, hch3, by simp, ?_, ?_, ?_⟩
      · simp only [hch3, Option.getD_some]
      · exact slotArr_setChunk_same chain1 it qs _ _ hA1
      · simpa using hqs0
      · intro v hv
        rw [← hCeq, hB] at hv
        simp at hv
      · intro it2 qs2 hne
        rw [chunkAt_setChunk_other chain1 it qs _ it2 qs2 hne, hCeq]
      · exact wf_setChunk _ _ _ _ _ _ (by simp) hwf1
    · -- chunk present: write in place
      simp only [ensureChunk_some chain1 it qs dev.quantum_size [] ch0 hB]
      have hqs0 : qs < sl0.length := by omega
      refine ⟨chain1, sl0, ch0, ?_, hA1, hqs0, hB,
        wf_chunkAt_length _ _ chain1 hwf1 it qs ch0 hB, ?_, ?_, hwf1⟩
      · simp only [hB, Option.getD_some]
      · intro v hv
        rw [← hCeq, hB] at hv
        exact Option.some.inj hv
      · intro it2 qs2 hne
        exact hCeq it2 qs2

theorem bchd_write_nil_storeGet (dev : BchdDev) (pos : Nat) (buf : List Nat)
    (k : Nat)
    (hk : k = min buf.length (dev.quantum_size - pos % dev.quantum_size))
    (hQ : 0 < dev.quantum_size) (hS : 0 < dev.qset_size)
    (hwf : wfB dev = true) :
    wfB (bchd_write dev pos buf []).1 = true ∧
    (∀ i, i < k →
      storeGet (bchd_write dev pos buf []).1 (pos + i) = some (buf.getD i 0)) ∧
    (∀ off v, storeGet dev off = some v → off < pos ∨ pos + k ≤ off →
      storeGet (bchd_write dev pos buf []).1 off = some v) := by
  obtain ⟨chain3, sl, ch, heq, hsl, hqsl, hch, hchlen, hold, hother, hwf3⟩ :=
    bchd_write_nil_char dev pos buf k hk hS hwf
  have hqplt : pos % dev.quantum_size < dev.quantum_size := Nat.mod_lt _ hQ
  have hkle : k ≤ buf.length := by omega
  have hqpk : pos % dev.quantum_size + k ≤ dev.quantum_size := by omega
  have hwlen : (memwrite ch (pos % dev.quantum_size) buf k).length =
      dev.quantum_size := by
    rw [memwrite_length ch _ buf k (by omega) hkle, hchlen]
  rw [heq]
  simp only
  refine ⟨?_, ?_, ?_⟩
  · unfold wfB
    simp only
    exact wf_setChunk _ _ chain3 _ _ _ hwlen hwf3
  · intro i hik
    unfold storeGet
    simp only
    rw [resolve_shift pos i dev.quantum_size dev.qset_size (by omega)]
    simp only
    rw [chunkAt_setChunk_same chain3 _ _ _ sl hsl hqsl]
    simp only
    rw [memwrite_getD ch _ buf k _ (by omega) hkle]
    have h1 : ¬(pos % dev.quantum_size + i < pos % dev.quantum_size) := by omega
    have h2 : pos % dev.quantum_size + i < pos % dev.quantum_size + k := by omega
    rw [if_neg h1, if_pos h2]
    congr 2
    omega
  · intro off v hv hout
    unfold storeGet at hv ⊢
    simp only at hv ⊢
    rw [resolve_eq] at hv ⊢
    simp only at hv ⊢
    by_cases hsame : off / dev.quantum_size / dev.qset_size =
        pos / dev.quantum_size / dev.qset_size ∧
        off / dev.quantum_size % dev.qset_size =
        pos / dev.quantum_size % dev.qset_size
    · have hs1 := hsame.1
      have hs2 := hsame.2
      have hdiveq : off / dev.quantum_size = pos / dev.quantum_size := by
        have e1 := Nat.div_add_mod (off / dev.quantum_size) dev.qset_size
        have e2 := Nat.div_add_mod (pos / dev.quantum_size) dev.qset_size
        rw [hs1, hs2] at e1
        omega
      rcases hC : chunkAt dev.data (off / dev.quantum_size / dev.qset_size)
          (off / dev.quantum_size % dev.qset_size) with _ | ch0
      · rw [hC] at hv
        simp at hv
      · rw [hC] at hv
        simp only at hv
        have hcheq : ch = ch0 := by
          apply hold
          rw [← hsame.1, ← hsame.2]
          exact hC
        rw [hsame.1, hsame.2]
        rw [chunkAt_setChunk_same chain3 _ _ _ sl hsl hqsl]
        simp only
        have hoffmod : off % dev.quantum_size < pos % dev.quantum_size ∨
            pos % dev.quantum_size + k ≤ off % dev.quantum_size := by
          have e3 := Nat.div_add_mod off dev.quantum_size
          have e4 := Nat.div_add_mod pos dev.quantum_size
          rw [hdiveq] at e3
          have e5 : off % dev.quantum_size < dev.quantum_size :=
            Nat.mod_lt _ hQ
          rcases hout with h | h
          · left; omega
          · right; omega
        rw [memwrite_getD ch _ buf k _ (by omega) hkle]
        rcases hoffmod with h | h
        · rw [if_pos h, hcheq]
          exact hv
        · rw [if_neg (by omega), if_neg (by omega), hcheq]
          exact hv
    · rw [chunkAt_setChunk_other chain3 _ _ _ _ _ hsame, hother _ _ hsame]
      exact hv

theorem writeAll_nil (fuel : Nat) (dev : BchdDev) (pos : Nat) :
    writeAll fuel dev pos [] = dev := by
  cases fuel <;> rfl

theorem writeAll_spec (fuel : Nat) : ∀ (dev : BchdDev) (pos : Nat)
    (buf : List Nat), buf.length ≤ fuel → 0 < dev.quantum_size →
    0 < dev.qset_size → wfB dev = true →
    (writeAll fuel dev pos buf).quantum_size = dev.quantum_size ∧
    (writeAll fuel dev pos buf).qset_size = dev.qset_size ∧
    (writeAll fuel dev pos buf).log_pos = dev.log_pos ∧
    (writeAll fuel dev pos buf).max_word_len = dev.max_word_len ∧
    wfB (writeAll fuel dev pos buf) = true ∧
    dev.size ≤ (writeAll fuel dev pos buf).size ∧
    (buf ≠ [] → pos + buf.length ≤ (writeAll fuel dev pos buf).size) ∧
    (∀ i, i < buf.length →
      storeGet (writeAll fuel dev pos buf) (pos + i) = some (buf.getD i 0)) ∧
    (∀ off v, storeGet dev off = some v →
      off < pos ∨ pos + buf.length ≤ off →
      storeGet (writeAll fuel dev pos buf) off = some v) := by
  induction fuel with
  | zero =>
    intro dev pos buf hle hQ hS hwf
    have hbuf : buf = [] := List.length_eq_zero.mp (by omega)
    subst hbuf
    simp only [writeAll_nil]
    refine ⟨by trivial, by trivial, by trivial, by trivial, hwf, le_refl _,
      by simp, by simp, ?_⟩
    intro off v hv _
    exact hv
  | succ fuel ih =>
    intro dev pos buf hle hQ hS hwf
    rcases hbuf : buf with _ | ⟨b, rest⟩
    · simp only [writeAll_nil]
      refine ⟨by trivial, by trivial, by trivial, by trivial, hwf, le_refl _,
        by simp, by simp, ?_⟩
      intro off v hv _
      exact hv
    · subst hbuf
      set L := (b :: rest).length with hL
      set k := min (b :: rest).length
        (dev.quantum_size - pos % dev.quantum_size) with hkdef
      have hk1 : 1 ≤ k := by
        rw [hkdef]
        have : pos % dev.quantum_size < dev.quantum_size := Nat.mod_lt _ hQ
        simp only [List.length_cons, hL]
        omega
      have hkL : k ≤ L := by
        rw [hkdef, hL]
        exact Nat.min_le_left _ _
      obtain ⟨dev2, heq, hsz, hlp, hQ2, hS2, hM2⟩ :=
        bchd_write_nil_eq dev pos (b :: rest) k hkdef
      obtain ⟨hwf2, hvals, hpres⟩ :=
        bchd_write_nil_storeGet dev pos (b :: rest) k hkdef hQ hS hwf
      rw [heq] at hwf2 hvals hpres
      simp only at hwf2 hvals hpres
      simp only [writeAll, heq, Option.getD_some]
      have hrest : ((b :: rest).drop k).length = L - k := by
        simp [hL]
      obtain ⟨ihQ, ihS, ihlp, ihM, ihwf, ihsz, ihfull, ihvals, ihpres⟩ :=
        ih dev2 (pos + k) ((b :: rest).drop k)
          (by rw [hrest]; omega) (by rw [hQ2]; exact hQ)
          (by rw [hS2]; exact hS) hwf2
      refine ⟨by rw [ihQ, hQ2], by rw [ihS, hS2], by rw [ihlp, hlp],
        by rw [ihM, hM2], ihwf, ?_, ?_, ?_, ?_⟩
      · calc dev.size ≤ dev2.size := by rw [hsz]; exact Nat.le_max_left _ _
          _ ≤ _ := ihsz
      · intro _
        by_cases hkfull : L ≤ k
        · have : pos + L ≤ dev2.size := by
            rw [hsz]
            have : k ≤ L := hkL
            have : L = k := by omega
            rw [this]
            exact Nat.le_max_right _ _
          omega
        · have hne : (b :: rest).drop k ≠ [] := by
            rw [← List.length_pos]
            rw [hrest]
            omega
          have := ihfull hne
          rw [hrest] at this
          omega
      · intro i hi
        by_cases hik : i < k
        · apply ihpres
          · exact hvals i hik
          · left
            omega
        · have h2 := ihvals (i - k) (by rw [hrest]; omega)
          have e1 : pos + k + (i - k) = pos + i := by omega
          rw [e1] at h2
          rw [h2]
          congr 1
          rw [getD_drop, Nat.add_sub_cancel' (by omega)]
      · intro off v hv hout
        apply ihpres
        · apply hpres off v hv
          rcases hout with h | h
          · left; exact h
          · right; omega
        · rcases hout with h | h
          · left; omega
          · right
            rw [hrest]
            omega

theorem if_gt_min (a b : Nat) : (if a > b then b else a) = min a b := by
  split <;> omega

theorem bchd_read_past_end (dev : BchdDev) (pos want : Nat)
    (oracle : List Bool) (h : dev.size ≤ pos) :
    bchd_read dev pos want oracle = (dev, [], pos, oracle) := by
  unfold bchd_read
  rw [if_pos h]

theorem bchd_read_nil_absent (dev : BchdDev) (pos want : Nat)
    (hlt : pos < dev.size)
    (hch : chunkAt dev.data (pos / dev.quantum_size / dev.qset_size)
      (pos / dev.quantum_size % dev.qset_size) = none) :
    bchd_read dev pos want [] =
      ({ dev with data := dev.data ++
         List.replicate (pos / dev.quantum_size / dev.qset_size + 1
           - dev.data.length) ⟨none⟩ }, [], pos, []) := by
  have hres := resolve_eq pos dev.quantum_size dev.qset_size
  have hch1 : chunkAt (dev.data ++
      List.replicate (pos / dev.quantum_size / dev.qset_size + 1
        - dev.data.length) ⟨none⟩) (pos / dev.quantum_size / dev.qset_size)
      (pos / dev.quantum_size % dev.qset_size) = none := by
    rw [chunkAt_replicate_append]
    exact hch
  unfold bchd_read
  rw [if_neg (by omega)]
  simp only [hres, bchd_follow_ext_nil, hch1]

theorem bchd_read_nil_present (dev : BchdDev) (pos want : Nat)
    (hlt : pos < dev.size) (ch : Chunk)
    (hch : chunkAt dev.data (pos / dev.quantum_size / dev.qset_size)
      (pos / dev.quantum_size % dev.qset_size) = some ch) :
    bchd_read dev pos want [] =
      ({ dev with data := dev.data ++
         List.replicate (pos / dev.quantum_size / dev.qset_size + 1
           - dev.data.length) ⟨none⟩ },
       (ch.drop (pos % dev.quantum_size)).take
         (min (min want (dev.size - pos))
           (dev.quantum_size - pos % dev.quantum_size)),
       pos + min (min want (dev.size - pos))
         (dev.quantum_size - pos % dev.quantum_size), []) := by
  have hres := resolve_eq pos dev.quantum_size dev.qset_size
  have hch1 : chunkAt (dev.data ++
      List.replicate (pos / dev.quantum_size / dev.qset_size + 1
        - dev.data.length) ⟨none⟩) (pos / dev.quantum_size / dev.qset_size)
      (pos / dev.quantum_size % dev.qset_size) = some ch := by
    rw [chunkAt_replicate_append]
    exact hch
  unfold bchd_read
  rw [if_neg (by omega)]
  simp only [hres, bchd_follow_ext_nil, hch1]
  have e1 : (if pos + want > dev.size then dev.size - pos else want) =
      min want (dev.size - pos) := by
    split <;> omega
  rw [e1, if_gt_min]

theorem storeGet_data_append_replicate (dev : BchdDev) (m : Nat) (off : Nat) :
    storeGet { dev with data := (dev.data ++
      List.replicate m ⟨none⟩ : List BchdQset) } off = storeGet dev off := by
  unfold storeGet
  simp only
  rw [chunkAt_replicate_append]

theorem storeGet_some_chunkAt (dev : BchdDev) (off : Nat) (v : Nat)
    (h : storeGet dev off = some v) :
    ∃ ch, chunkAt dev.data (off / dev.quantum_size / dev.qset_size)
      (off / dev.quantum_size % dev.qset_size) = some ch ∧
      ch.getD (off % dev.quantum_size) 0 = v := by
  unfold storeGet at h
  rw [resolve_eq] at h
  simp only at h
  rcases hC : chunkAt dev.data (off / dev.quantum_size / dev.qset_size)
      (off / dev.quantum_size % dev.qset_size) with _ | ch
  · rw [hC] at h
    simp at h
  · rw [hC] at h
    simp only at h
    exact ⟨ch, rfl, Option.some.inj h⟩

theorem storeGet_of_chunkAt (dev : BchdDev) (off : Nat) (ch : Chunk)
    (h : chunkAt dev.data (off / dev.quantum_size / dev.qset_size)
      (off / dev.quantum_size % dev.qset_size) = some ch) :
    storeGet dev off = some (ch.getD (off % dev.quantum_size) 0) := by
  unfold storeGet
  rw [resolve_eq]
  simp only
  rw [h]

theorem readAll_zero_want (fuel : Nat) (dev : BchdDev) (pos : Nat) :
    readAll fuel dev pos 0 = ([], dev) := by
  cases fuel <;> rfl

theorem readAll_spec (fuel : Nat) : ∀ (dev : BchdDev) (pos want : Nat),
    want ≤ fuel → 0 < dev.quantum_size → 0 < dev.qset_size →
    wfB dev = true → pos + want ≤ dev.size →
    (∀ i, i < want → storeGet dev (pos + i) ≠ none) →
    (readAll fuel dev pos want).1 =
      (List.range want).map (fun i => (storeGet dev (pos + i)).getD 0) := by
  induction fuel with
  | zero =>
    intro dev pos want hle hQ hS hwf hsz hvals
    have : want = 0 := by omega
    subst this
    simp [readAll]
  | succ fuel ih =>
    intro dev pos want hle hQ hS hwf hsz hvals
    by_cases hw0 : want = 0
    · subst hw0
      simp [readAll]
    · have hw1 : 1 ≤ want := by omega
      have hsg := hvals 0 (by omega)
      rw [Nat.add_zero] at hsg
      rcases hC : chunkAt dev.data (pos / dev.quantum_size / dev.qset_size)
          (pos / dev.quantum_size % dev.qset_size) with _ | ch
      · exfalso
        apply hsg
        unfold storeGet
        rw [resolve_eq]
        simp only
        rw [hC]
      · have hlt : pos < dev.size := by omega
        have hchlen : ch.length = dev.quantum_size := by
          unfold wfB at hwf
          exact wf_chunkAt_length _ _ dev.data hwf _ _ ch hC
        have hqplt : pos % dev.quantum_size < dev.quantum_size :=
          Nat.mod_lt _ hQ
        set c2 := min (min want (dev.size - pos))
          (dev.quantum_size - pos % dev.quantum_size) with hc2
        have hc21 : 1 ≤ c2 := by omega
        have hc2w : c2 ≤ want := by omega
        have hc2q : c2 ≤ dev.quantum_size - pos % dev.quantum_size := by omega
        have heq := bchd_read_nil_present dev pos want hlt ch hC
        have hbytes : (ch.drop (pos % dev.quantum_size)).take c2 =
            (List.range c2).map
              (fun i => ch.getD (pos % dev.quantum_size + i) 0) := by
          apply drop_take_eq_range_map
          omega
        have hblen : ((ch.drop (pos % dev.quantum_size)).take c2).length = c2 := by
          rw [hbytes]
          simp
        simp only [readAll, if_neg hw0, heq, hblen]
        rw [if_neg (by omega)]
        simp only
        set dev1 : BchdDev := { dev with data := (dev.data ++
          List.replicate (pos / dev.quantum_size / dev.qset_size + 1
            - dev.data.length) ⟨none⟩ : List BchdQset) } with hdev1
        have hsg1 : ∀ off, storeGet dev1 off = storeGet dev off := by
          intro off
          rw [hdev1]
          exact storeGet_data_append_replicate dev _ off
        have hwf1 : wfB dev1 = true := by
          rw [hdev1]
          unfold wfB at hwf ⊢
          simp only
          exact wf_append_replicate _ _ _ _ hwf
        have ihres := ih dev1 (pos + c2) (want - c2) (by omega) hQ hS hwf1
          (by simp only [hdev1]; omega)
          (by
            intro i hi
            rw [hsg1]
            have e : pos + c2 + i = pos + (c2 + i) := by omega
            rw [e]
            exact hvals (c2 + i) (by omega))
        rw [ihres]
        have hrange : want = c2 + (want - c2) := by omega
        conv_rhs => rw [hrange]
        rw [List.range_add, List.map_append, List.map_map]
        congr 1
        · rw [hbytes]
          apply List.map_congr_left
          intro i hi
          have hic : i < c2 := List.mem_range.mp hi
          have hshift := resolve_shift pos i dev.quantum_size dev.qset_size
            (by omega)
          have hsgi : storeGet dev (pos + i) =
              some (ch.getD (pos % dev.quantum_size + i) 0) := by
            unfold storeGet
            rw [hshift]
            simp only
            rw [hC]
          rw [hsgi]
          rfl
        · apply List.map_congr_left
          intro i hi
          rw [hsg1]
          have e : pos + c2 + i = pos + (c2 + i) := by omega
          rw [e]
          rfl

/-- C1: for every offset and byte sequence written through successive
bounded `bchd_write` calls (each call advancing its offset by the count the
previous call returned), reading back `len(b)` bytes from the offset via
successive bounded `bchd_read` calls returns exactly the written bytes. -/
theorem C1_round_trip (dev : BchdDev) (pos : Nat) (buf : List Nat)
    (hQ : 0 < dev.quantum_size) (hS : 0 < dev.qset_size)
    (hwf : wfB dev = true) :
    (readAll buf.length (writeAll buf.length dev pos buf) pos
      buf.length).1 = buf := by
  by_cases h0 : buf = []
  · subst h0
    simp [readAll_zero_want]
  · obtain ⟨hQ2, hS2, _, _, hwf2, _, hfull, hvals, _⟩ :=
      writeAll_spec buf.length dev pos buf (le_refl _) hQ hS hwf
    have hra := readAll_spec buf.length (writeAll buf.length dev pos buf) pos
      buf.length (le_refl _) (by rw [hQ2]; exact hQ) (by rw [hS2]; exact hS)
      hwf2 (hfull h0) (fun i hi => by rw [hvals i hi]; simp)
    rw [hra]
    have hpt : ∀ i ∈ List.range buf.length,
        (storeGet (writeAll buf.length dev pos buf) (pos + i)).getD 0 =
          buf.getD i 0 := by
      intro i hi
      rw [hvals i (List.mem_range.mp hi)]
      rfl
    rw [List.map_congr_left hpt]
    exact range_map_getD buf

theorem ensureSlotArr_preserves (chain : List BchdQset) (it S : Nat)
    (oracle : List Bool) :
    (ensureSlotArr chain it S oracle).1.length = chain.length ∧
    (∀ it2 qs2 ch, chunkAt chain it2 qs2 = some ch →
      chunkAt (ensureSlotArr chain it S oracle).1 it2 qs2 = some ch) := by
  unfold ensureSlotArr
  rcases hs : slotArr chain it with _ | sl
  · rcases hk : kmalloc oracle with ⟨b, o1⟩
    cases b
    · exact ⟨by simp, fun it2 qs2 ch hch => hch⟩
    · refine ⟨List.length_set _ _ _, ?_⟩
      intro it2 qs2 ch hch
      by_cases hi : it2 = it
      · subst hi
        unfold chunkAt at hch
        rw [hs] at hch
        simp at hch
      · unfold chunkAt slotArr at hch ⊢
        rw [getD_set_ne _ _ _ _ _ (fun he => hi he.symm)]
        exact hch
  · exact ⟨rfl, fun it2 qs2 ch hch => hch⟩

theorem ensureChunk_preserves (chain : List BchdQset) (it qs Q : Nat)
    (oracle : List Bool) :
    (ensureChunk chain it qs Q oracle).1.length = chain.length ∧
    (∀ it2 qs2 ch, chunkAt chain it2 qs2 = some ch →
      chunkAt (ensureChunk chain it qs Q oracle).1 it2 qs2 = some ch) := by
  unfold ensureChunk
  rcases hs : chunkAt chain it qs with _ | ch0
  · rcases hk : kmalloc oracle with ⟨b, o1⟩
    cases b
    · exact ⟨by simp, fun it2 qs2 ch hch => hch⟩
    · refine ⟨setChunk_length _ _ _ _, ?_⟩
      intro it2 qs2 ch hch
      by_cases hi : it2 = it ∧ qs2 = qs
      · rw [hi.1, hi.2] at hch
        rw [hs] at hch
        simp at hch
      · rw [chunkAt_setChunk_other chain it qs _ it2 qs2 hi]
        exact hch
  · exact ⟨rfl, fun it2 qs2 ch hch => hch⟩

theorem bchd_write_enomem_char (dev : BchdDev) (pos : Nat) (buf : List Nat)
    (oracle : List Bool) :
    (bchd_write dev pos buf oracle).2.1 = none →
    ∃ chain' orest,
      bchd_write dev pos buf oracle = ({ dev with data := chain' }, none,
        pos, orest) ∧
      dev.data.length ≤ chain'.length ∧
      (∀ it qs ch, chunkAt dev.data it qs = some ch →
        chunkAt chain' it qs = some ch) := by
  rcases hf : bchd_follow_ext dev.data
    ((resolve pos dev.quantum_size dev.qset_size).1 + 1) oracle
    with ⟨chain1, ok1, o1⟩
  have hch1 : chain1 = dev.data ++
      (allocMissing ((resolve pos dev.quantum_size dev.qset_size).1 + 1
        - dev.data.length) oracle).1 := by
    have := bchd_follow_ext_fst dev.data
      ((resolve pos dev.quantum_size dev.qset_size).1 + 1) oracle
    rw [hf] at this
    exact this
  have hlen1 : dev.data.length ≤ chain1.length := by
    rw [hch1]
    simp only [List.length_append]
    omega
  have hpres1 : ∀ it qs ch, chunkAt dev.data it qs = some ch →
      chunkAt chain1 it qs = some ch := by
    intro it qs ch hch
    rw [hch1, chunkAt_append_default _ _ (allocMissing_mem _ oracle) it qs]
    exact hch
  cases ok1
  · have hw : bchd_write dev pos buf oracle =
        ({ dev with data := chain1 }, none, pos, o1) := by
      simp only [bchd_write, hf]
    rw [hw]
    intro _
    exact ⟨chain1, o1, rfl, hlen1, hpres1⟩
  · rcases he2 : ensureSlotArr chain1
      (resolve pos dev.quantum_size dev.qset_size).1 dev.qset_size o1
      with ⟨chain2, ok2, o2⟩
    have hp2 := ensureSlotArr_preserves chain1
      (resolve pos dev.quantum_size dev.qset_size).1 dev.qset_size o1
    rw [he2] at hp2
    simp only at hp2
    cases ok2
    · have hw : bchd_write dev pos buf oracle =
          ({ dev with data := chain2 }, none, pos, o2) := by
        simp only [bchd_write, hf, he2]
      rw [hw]
      intro _
      refine ⟨chain2, o2, rfl, by omega, ?_⟩
      intro it qs ch hch
      exact hp2.2 it qs ch (hpres1 it qs ch hch)
    · rcases he3 : ensureChunk chain2
        (resolve pos dev.quantum_size dev.qset_size).1
        (resolve pos dev.quantum_size dev.qset_size).2.1 dev.quantum_size o2
        with ⟨chain3, ok3, o3⟩
      have hp3 := ensureChunk_preserves chain2
        (resolve pos dev.quantum_size dev.qset_size).1
        (resolve pos dev.quantum_size dev.qset_size).2.1 dev.quantum_size o2
      rw [he3] at hp3
      simp only at hp3
      cases ok3
      · have hw : bchd_write dev pos buf oracle =
            ({ dev with data := chain3 }, none, pos, o3) := by
          simp only [bchd_write, hf, he2, he3]
        rw [hw]
        intro _
        refine ⟨chain3, o3, rfl, by omega, ?_⟩
        intro it qs ch hch
        exact hp3.2 it qs ch (hp2.2 it qs ch (hpres1 it qs ch hch))
      · have hw : (bchd_write dev pos buf oracle).2.1 =
            some (min buf.length (dev.quantum_size -
              (resolve pos dev.quantum_size dev.qset_size).2.2)) := by
          simp only [bchd_write, hf, he2, he3]
        intro hcontra
        rw [hw] at hcontra
        simp at hcontra

theorem bchd_write_success_char (dev : BchdDev) (pos : Nat) (buf : List Nat)
    (oracle : List Bool) (k : Nat)
    (h : (bchd_write dev pos buf oracle).2.1 = some k) :
    k = min buf.length (dev.quantum_size - pos % dev.quantum_size) ∧
    (bchd_write dev pos buf oracle).2.2.1 = pos + k ∧
    (bchd_write dev pos buf oracle).1.size = max dev.size (pos + k) := by
  have hqp : (resolve pos dev.quantum_size dev.qset_size).2.2 =
      pos % dev.quantum_size := by
    rw [resolve_eq]
  rcases hf : bchd_follow_ext dev.data
    ((resolve pos dev.quantum_size dev.qset_size).1 + 1) oracle
    with ⟨chain1, ok1, o1⟩
  cases ok1
  · have hw : bchd_write dev pos buf oracle =
        ({ dev with data := chain1 }, none, pos, o1) := by
      simp only [bchd_write, hf]
    rw [hw] at h
    simp at h
  · rcases he2 : ensureSlotArr chain1
      (resolve pos dev.quantum_size dev.qset_size).1 dev.qset_size o1
      with ⟨chain2, ok2, o2⟩
    cases ok2
    · have hw : bchd_write dev pos buf oracle =
          ({ dev with data := chain2 }, none, pos, o2) := by
        simp only [bchd_write, hf, he2]
      rw [hw] at h
      simp at h
    · rcases he3 : ensureChunk chain2
        (resolve pos dev.quantum_size dev.qset_size).1
        (resolve pos dev.quantum_size dev.qset_size).2.1 dev.quantum_size o2
        with ⟨chain3, ok3, o3⟩
      cases ok3
      · have hw : bchd_write dev pos buf oracle =
            ({ dev with data := chain3 }, none, pos, o3) := by
          simp only [bchd_write, hf, he2, he3]
        rw [hw] at h
        simp at h
      · have hw : bchd_write dev pos buf oracle =
            ({ dev with
               data := setChunk chain3
                 (resolve pos dev.quantum_size dev.qset_size).1
                 (resolve pos dev.quantum_size dev.qset_size).2.1
                 (memwrite ((chunkAt chain3
                     (resolve pos dev.quantum_size dev.qset_size).1
                     (resolve pos dev.quantum_size dev.qset_size).2.1).getD [])
                   (resolve pos dev.quantum_size dev.qset_size).2.2 buf
                   (min buf.length (dev.quantum_size -
                     (resolve pos dev.quantum_size dev.qset_size).2.2)))
               size := max dev.size (pos + min buf.length (dev.quantum_size -
                 (resolve pos dev.quantum_size dev.qset_size).2.2)) },
             some (min buf.length (dev.quantum_size -
               (resolve pos dev.quantum_size dev.qset_size).2.2)),
             pos + min buf.length (dev.quantum_size -
               (resolve pos dev.quantum_size dev.qset_size).2.2), o3) := by
          simp only [bchd_write, hf, he2, he3]
        rw [hw] at h ⊢
        simp only [Option.some.injEq] at h
        rw [hqp] at h
        subst h
        rw [hqp]
        exact ⟨rfl, rfl, rfl⟩

/-- C3: every successful write call copies and returns
`min(len(bytes), quantum_size - offset % quantum_size)` bytes (the write is
clipped to the remainder of the addressed chunk), advances the file
position by that count, and afterwards `size = max(old size, offset +
count)`. -/
theorem C3_write_clip_and_size (dev : BchdDev) (pos : Nat) (buf : List Nat)
    (oracle : List Bool) (k : Nat)
    (h : (bchd_write dev pos buf oracle).2.1 = some k) :
    k = min buf.length (dev.quantum_size - pos % dev.quantum_size) ∧
    (bchd_write dev pos buf oracle).2.2.1 = pos + k ∧
    (bchd_write dev pos buf oracle).1.size = max dev.size (pos + k) :=
  bchd_write_success_char dev pos buf oracle k h

theorem C3_write_clip_and_size_witness :
    (bchd_write bchd_init 3998 [1, 2, 3, 4, 5] []).2.1 = some 2 ∧
    (2 = min 5 (bchd_init.quantum_size - 3998 % bchd_init.quantum_size) ∧
     (bchd_write bchd_init 3998 [1, 2, 3, 4, 5] []).2.2.1 = 3998 + 2 ∧
     (bchd_write bchd_init 3998 [1, 2, 3, 4, 5] []).1.size =
       max bchd_init.size (3998 + 2)) :=
  ⟨by decide, by
    have := C3_write_clip_and_size bchd_init 3998 [1, 2, 3, 4, 5] [] 2
      (by decide)
    simpa using this⟩

/-- C5: when a write call fails with OutOfMemory (an allocation of a chain
group, slot array, or chunk failed), zero bytes are reported written (the
`-ENOMEM` return, modelled as `none`), the caller's offset and `size` (and
the cursor) are unchanged, and every structure allocated before the
failure remains attached: the chain can only have grown, and every chunk
present before is still present with identical contents (no rollback). -/
theorem C5_write_oom_no_rollback (dev : BchdDev) (pos : Nat)
    (buf : List Nat) (oracle : List Bool)
    (h : (bchd_write dev pos buf oracle).2.1 = none) :
    (bchd_write dev pos buf oracle).2.2.1 = pos ∧
    (bchd_write dev pos buf oracle).1.size = dev.size ∧
    (bchd_write dev pos buf oracle).1.log_pos = dev.log_pos ∧
    dev.data.length ≤ (bchd_write dev pos buf oracle).1.data.length ∧
    (∀ it qs ch, chunkAt dev.data it qs = some ch →
      chunkAt (bchd_write dev pos buf oracle).1.data it qs = some ch) := by
  obtain ⟨chain2, orest, heq, hlen, hpres⟩ :=
    bchd_write_enomem_char dev pos buf oracle h
  rw [heq]
  exact ⟨rfl, rfl, rfl, hlen, hpres⟩

theorem C5_write_oom_no_rollback_witness :
    (bchd_write bchd_init 0 [1] [false]).2.1 = none ∧
    ((bchd_write bchd_init 0 [1] [false]).2.2.1 = 0 ∧
     (bchd_write bchd_init 0 [1] [false]).1.size = bchd_init.size ∧
     (bchd_write bchd_init 0 [1] [false]).1.log_pos = bchd_init.log_pos ∧
     bchd_init.data.length ≤ (bchd_write bchd_init 0 [1] [false]).1.data.length ∧
     (∀ it qs ch, chunkAt bchd_init.data it qs = some ch →
       chunkAt (bchd_write bchd_init 0 [1] [false]).1.data it qs = some ch)) :=
  ⟨by decide, C5_write_oom_no_rollback bchd_init 0 [1] [false] (by decide)⟩

/-- C4: a read at `offset ≥ size` returns an empty result; otherwise, if
the addressed chunk is present the returned length is the requested count
clipped first to `size - offset` and then to the remainder of the
addressed chunk `quantum_size - offset % quantum_size`, and if the
addressed slot array or chunk is absent the result is empty (holes are
never filled with fabricated bytes). -/
theorem C4_read_clip (dev : BchdDev) (pos cnt : Nat)
    (hwf : wfB dev = true) :
    (dev.size ≤ pos → bchd_read dev pos cnt [] = (dev, [], pos, [])) ∧
    (pos < dev.size →
      (∀ ch, chunkAt dev.data (pos / dev.quantum_size / dev.qset_size)
          (pos / dev.quantum_size % dev.qset_size) = some ch →
        (bchd_read dev pos cnt []).2.1.length =
          min (min cnt (dev.size - pos))
            (dev.quantum_size - pos % dev.quantum_size)) ∧
      (chunkAt dev.data (pos / dev.quantum_size / dev.qset_size)
          (pos / dev.quantum_size % dev.qset_size) = none →
        (bchd_read dev pos cnt []).2.1 = [])) := by
  refine ⟨fun h => bchd_read_past_end dev pos cnt [] h, fun hlt => ⟨?_, ?_⟩⟩
  · intro ch hch
    rw [bchd_read_nil_present dev pos cnt hlt ch hch]
    have hchlen : ch.length = dev.quantum_size := by
      unfold wfB at hwf
      exact wf_chunkAt_length _ _ dev.data hwf _ _ ch hch
    simp only [List.length_take, List.length_drop, hchlen]
    omega
  · intro hch
    rw [bchd_read_nil_absent dev pos cnt hlt hch]

/-- A small well-formed device used as concrete input: one chain group
whose slot 0 holds the chunk [5, 6], with quantum_size 2 and qset_size 2,
holding 2 stored bytes but with size 3 (so offset 2 lies in an absent
chunk). -/
def c4dev : BchdDev :=
  { data := [⟨some [some [5, 6], none]⟩]
    quantum_size := 2
    qset_size := 2
    size := 3
    log_pos := 0
    max_word_len := 20 }

theorem C4_read_clip_witness :
    wfB c4dev = true ∧
    ((c4dev.size ≤ 1 → bchd_read c4dev 1 7 [] = (c4dev, [], 1, [])) ∧
     (1 < c4dev.size →
       (∀ ch, chunkAt c4dev.data (1 / c4dev.quantum_size / c4dev.qset_size)
           (1 / c4dev.quantum_size % c4dev.qset_size) = some ch →
         (bchd_read c4dev 1 7 []).2.1.length =
           min (min 7 (c4dev.size - 1))
             (c4dev.quantum_size - 1 % c4dev.quantum_size)) ∧
       (chunkAt c4dev.data (1 / c4dev.quantum_size / c4dev.qset_size)
           (1 / c4dev.quantum_size % c4dev.qset_size) = none →
         (bchd_read c4dev 1 7 []).2.1 = []))) :=
  ⟨by decide, C4_read_clip c4dev 1 7 (by decide)⟩

/- ### Size-zero and field-preservation lemmas -/

theorem bchd_log_word_size_zero (dev : BchdDev) (oracle : List Bool)
    (h : dev.size = 0) :
    bchd_log_word dev oracle =
      { dev := dev, emit := TickEmit.diag, rescheduled := true,
        oracle := oracle } := by
  unfold bchd_log_word
  rw [if_pos h]

theorem applyOps_nonwrite_size_zero (ops : List Op) : ∀ dev : BchdDev,
    dev.size = 0 → ops.all (fun o => !o.isWrite) = true →
    (applyOps dev ops).size = 0 := by
  induction ops with
  | nil =>
    intro dev h _
    exact h
  | cons op rest ih =>
    intro dev h hall
    rw [List.all_cons, Bool.and_eq_true] at hall
    show (applyOps (applyOp dev op) rest).size = 0
    apply ih _ _ hall.2
    cases op with
    | write pos buf oracle => simp [Op.isWrite] at hall
    | read pos cnt oracle =>
      show (bchd_read dev pos cnt oracle).1.size = 0
      rw [bchd_read_past_end dev pos cnt oracle (by omega)]
      exact h
    | trim => rfl
    | tick oracle =>
      show (bchd_log_word dev oracle).dev.size = 0
      rw [bchd_log_word_size_zero dev oracle h]
      exact h

/-- C6: after `bchd_trim`, `size = 0`, the cursor is 0, `quantum_size` and
`qset_size` are back at the configured defaults, the chunk chain is empty,
and after any further sequence of non-write operations every read at any
offset still returns zero bytes. -/
theorem C6_trim_resets (dev : BchdDev) (ops : List Op)
    (hnw : ops.all (fun o => !o.isWrite) = true) :
    (bchd_trim dev).size = 0 ∧
    (bchd_trim dev).log_pos = 0 ∧
    (bchd_trim dev).quantum_size = bchd_quantum_size ∧
    (bchd_trim dev).qset_size = bchd_qset_size ∧
    (bchd_trim dev).data = [] ∧
    (applyOps (bchd_trim dev) ops).size = 0 ∧
    (∀ pos cnt oracle,
      (bchd_read (applyOps (bchd_trim dev) ops) pos cnt oracle).2.1 = []) := by
  have hz : (applyOps (bchd_trim dev) ops).size = 0 :=
    applyOps_nonwrite_size_zero ops (bchd_trim dev) rfl hnw
  refine ⟨rfl, rfl, rfl, rfl, rfl, hz, ?_⟩
  intro pos cnt oracle
  rw [bchd_read_past_end _ _ _ _ (by omega)]

theorem C6_trim_resets_witness :
    ([Op.read 0 5 [], Op.tick [], Op.trim] :
      List Op).all (fun o => !o.isWrite) = true ∧
    ((bchd_trim c4dev).size = 0 ∧
     (bchd_trim c4dev).log_pos = 0 ∧
     (bchd_trim c4dev).quantum_size = bchd_quantum_size ∧
     (bchd_trim c4dev).qset_size = bchd_qset_size ∧
     (bchd_trim c4dev).data = [] ∧
     (applyOps (bchd_trim c4dev) [Op.read 0 5 [], Op.tick [], Op.trim]).size
       = 0 ∧
     (∀ pos cnt oracle,
       (bchd_read (applyOps (bchd_trim c4dev)
         [Op.read 0 5 [], Op.tick [], Op.trim]) pos cnt oracle).2.1 = [])) :=
  ⟨by decide,
    C6_trim_resets c4dev [Op.read 0 5 [], Op.tick [], Op.trim] (by decide)⟩

theorem scanWord_adv_le (fuel : Nat) : ∀ (ch : Chunk) (pos : Nat),
    (scanWord ch pos fuel).2 ≤ fuel := by
  induction fuel with
  | zero =>
    intro ch pos
    exact Nat.le_refl 0
  | succ f ih =>
    intro ch pos
    unfold scanWord
    by_cases h1 : toSigned (ch.getD pos 0) = 32 ∨ toSigned (ch.getD pos 0) = 10
    · rw [if_pos h1]
      omega
    · rw [if_neg h1]
      by_cases h2 : acceptable (toSigned (ch.getD pos 0)) = true
      · rw [if_pos h2]
        have := ih ch (pos + 1)
        simp only
        omega
      · rw [if_neg h2]
        have := ih ch (pos + 1)
        simp only
        omega

theorem scanWord_len_le (fuel : Nat) : ∀ (ch : Chunk) (pos : Nat),
    (scanWord ch pos fuel).1.length ≤ fuel := by
  induction fuel with
  | zero =>
    intro ch pos
    exact Nat.le_refl 0
  | succ f ih =>
    intro ch pos
    unfold scanWord
    by_cases h1 : toSigned (ch.getD pos 0) = 32 ∨ toSigned (ch.getD pos 0) = 10
    · rw [if_pos h1]
      simp
    · rw [if_neg h1]
      by_cases h2 : acceptable (toSigned (ch.getD pos 0)) = true
      · rw [if_pos h2]
        have := ih ch (pos + 1)
        simp only [List.length_cons]
        omega
      · rw [if_neg h2]
        have := ih ch (pos + 1)
        simp only
        omega

theorem bchd_write_fields (dev : BchdDev) (pos : Nat) (buf : List Nat)
    (oracle : List Bool) :
    (bchd_write dev pos buf oracle).1.log_pos = dev.log_pos ∧
    (bchd_write dev pos buf oracle).1.max_word_len = dev.max_word_len ∧
    dev.size ≤ (bchd_write dev pos buf oracle).1.size := by
  rcases hf : bchd_follow_ext dev.data
    ((resolve pos dev.quantum_size dev.qset_size).1 + 1) oracle
    with ⟨chain1, ok1, o1⟩
  cases ok1
  · have hw : (bchd_write dev pos buf oracle).1 =
        { dev with data := chain1 } := by
      simp only [bchd_write, hf]
    rw [hw]
    exact ⟨rfl, rfl, Nat.le_refl _⟩
  · rcases he2 : ensureSlotArr chain1
      (resolve pos dev.quantum_size dev.qset_size).1 dev.qset_size o1
      with ⟨chain2, ok2, o2⟩
    cases ok2
    · have hw : (bchd_write dev pos buf oracle).1 =
          { dev with data := chain2 } := by
        simp only [bchd_write, hf, he2]
      rw [hw]
      exact ⟨rfl, rfl, Nat.le_refl _⟩
    · rcases he3 : ensureChunk chain2
        (resolve pos dev.quantum_size dev.qset_size).1
        (resolve pos dev.quantum_size dev.qset_size).2.1 dev.quantum_size o2
        with ⟨chain3, ok3, o3⟩
      cases ok3
      · have hw : (bchd_write dev pos buf oracle).1 =
            { dev with data := chain3 } := by
          simp only [bchd_write, hf, he2, he3]
        rw [hw]
        exact ⟨rfl, rfl, Nat.le_refl _⟩
      · have hw : (bchd_write dev pos buf oracle).1.log_pos = dev.log_pos ∧
            (bchd_write dev pos buf oracle).1.max_word_len =
              dev.max_word_len ∧
            (bchd_write dev pos buf oracle).1.size = max dev.size
              (pos + min buf.length (dev.quantum_size -
                (resolve pos dev.quantum_size dev.qset_size).2.2)) := by
          simp only [bchd_write, hf, he2, he3]
          exact ⟨trivial, trivial, trivial⟩
        refine ⟨hw.1, hw.2.1, ?_⟩
        rw [hw.2.2]
        exact Nat.le_max_left _ _

theorem bchd_read_fields (dev : BchdDev) (pos cnt : Nat)
    (oracle : List Bool) :
    (bchd_read dev pos cnt oracle).1.log_pos = dev.log_pos ∧
    (bchd_read dev pos cnt oracle).1.max_word_len = dev.max_word_len ∧
    (bchd_read dev pos cnt oracle).1.size = dev.size := by
  by_cases h : dev.size ≤ pos
  · rw [bchd_read_past_end dev pos cnt oracle h]
    exact ⟨rfl, rfl, rfl⟩
  · rcases hf : bchd_follow_ext dev.data
      ((resolve pos dev.quantum_size dev.qset_size).1 + 1) oracle
      with ⟨chain1, ok1, o1⟩
    cases ok1
    · have hw : bchd_read dev pos cnt oracle =
          ({ dev with data := chain1 }, [], pos, o1) := by
        simp only [bchd_read, hf]
        rw [if_neg h]
      rw [hw]
      exact ⟨rfl, rfl, rfl⟩
    · rcases hc : chunkAt chain1
        (resolve pos dev.quantum_size dev.qset_size).1
        (resolve pos dev.quantum_size dev.qset_size).2.1 with _ | ch
      · have hw : bchd_read dev pos cnt oracle =
            ({ dev with data := chain1 }, [], pos, o1) := by
          simp only [bchd_read, hf, hc]
          rw [if_neg h]
        rw [hw]
        exact ⟨rfl, rfl, rfl⟩
      · have hw : (bchd_read dev pos cnt oracle).1 =
            { dev with data := chain1 } := by
          simp only [bchd_read, hf, hc]
          rw [if_neg h]
        rw [hw]
        exact ⟨rfl, rfl, rfl⟩

theorem bchd_log_word_invariant (dev : BchdDev) (oracle : List Bool)
    (h : dev.log_pos ≤ dev.size) :
    (bchd_log_word dev oracle).dev.log_pos ≤
      (bchd_log_word dev oracle).dev.size := by
  by_cases hsz : dev.size = 0
  · rw [bchd_log_word_size_zero dev oracle hsz]
    exact h
  · set lp0 := if dev.log_pos + 1 ≥ dev.size then 0 else dev.log_pos
      with hlp0def
    set mc1 := if lp0 + dev.max_word_len > dev.size then dev.size - lp0
      else dev.max_word_len with hmc1def
    set qrem := dev.quantum_size -
      (resolve lp0 dev.quantum_size dev.qset_size).2.2 with hqremdef
    set mc2 := if mc1 > qrem then qrem else mc1 with hmc2def
    have hlp0 : lp0 ≤ dev.size := by
      rw [hlp0def]
      split <;> omega
    have hmc1 : lp0 + mc1 ≤ dev.size := by
      rw [hmc1def]
      split <;> omega
    have hmc2 : mc2 ≤ mc1 := by
      rw [hmc2def]
      split <;> omega
    rcases hf : bchd_follow_ext dev.data
      ((resolve lp0 dev.quantum_size dev.qset_size).1 + 1) oracle
      with ⟨chain1, ok1, o1⟩
    cases ok1
    · have hw : bchd_log_word dev oracle =
          { dev := { dev with data := chain1, log_pos := lp0 }
            emit := TickEmit.skip
            rescheduled := false
            oracle := o1 } := by
        simp only [bchd_log_word]
        rw [if_neg hsz, ← hlp0def, ← hmc1def]
        simp only [hf]
      rw [hw]
      exact hlp0
    · rcases hc : chunkAt chain1
        (resolve lp0 dev.quantum_size dev.qset_size).1
        (resolve lp0 dev.quantum_size dev.qset_size).2.1 with _ | ch
      · have hw : bchd_log_word dev oracle =
            { dev := { dev with data := chain1, log_pos := lp0 }
              emit := TickEmit.skip
              rescheduled := false
              oracle := o1 } := by
          simp only [bchd_log_word]
          rw [if_neg hsz, ← hlp0def, ← hmc1def]
          simp only [hf, hc]
        rw [hw]
        exact hlp0
      · have hw : bchd_log_word dev oracle =
            { dev := { dev with data := chain1, log_pos := lp0 +
                (scanWord ch
                  (resolve lp0 dev.quantum_size dev.qset_size).2.2
                  (mc2 - 1)).2 }
              emit := TickEmit.word (scanWord ch
                (resolve lp0 dev.quantum_size dev.qset_size).2.2
                (mc2 - 1)).1
              rescheduled := true
              oracle := o1 } := by
          simp only [bchd_log_word]
          rw [if_neg hsz, ← hlp0def, ← hmc1def, ← hqremdef, ← hmc2def]
          simp only [hf, hc]
        rw [hw]
        have hadv := scanWord_adv_le (mc2 - 1) ch
          (resolve lp0 dev.quantum_size dev.qset_size).2.2
        show lp0 + (scanWord ch
          (resolve lp0 dev.quantum_size dev.qset_size).2.2 (mc2 - 1)).2 ≤
          dev.size
        omega

theorem applyOp_invariant (dev : BchdDev) (op : Op)
    (h : dev.log_pos ≤ dev.size) :
    (applyOp dev op).log_pos ≤ (applyOp dev op).size := by
  cases op with
  | write pos buf oracle =>
    have hf := bchd_write_fields dev pos buf oracle
    show (bchd_write dev pos buf oracle).1.log_pos ≤
      (bchd_write dev pos buf oracle).1.size
    omega
  | read pos cnt oracle =>
    have hf := bchd_read_fields dev pos cnt oracle
    show (bchd_read dev pos cnt oracle).1.log_pos ≤
      (bchd_read dev pos cnt oracle).1.size
    omega
  | trim => exact Nat.le_refl 0
  | tick oracle => exact bchd_log_word_invariant dev oracle h

/-- C8: in every state reachable from the initial device by any sequence
of write, read, trim, and tick operations (with arbitrary allocation
outcomes), the cursor invariant `log_pos ≤ size` holds (the lower bound
`0 ≤ log_pos` is inherent to the natural-number model): a tick never
advances the cursor beyond `size` (it is reset to 0 when it would reach
within one byte of `size`), trim resets both to 0, and read/write never
decrease `size` or move the cursor. -/
theorem C8_cursor_invariant (ops : List Op) :
    (applyOps bchd_init ops).log_pos ≤ (applyOps bchd_init ops).size := by
  have main : ∀ (l : List Op) (dev : BchdDev), dev.log_pos ≤ dev.size →
      (applyOps dev l).log_pos ≤ (applyOps dev l).size := by
    intro l
    induction l with
    | nil => intro dev h; exact h
    | cons op rest ih =>
      intro dev h
      exact ih (applyOp dev op) (applyOp_invariant dev op h)
  exact main ops bchd_init (Nat.le_refl 0)

theorem acceptable_always_true (c : Int) : acceptable c = true := by
  unfold acceptable
  rcases le_or_lt 32 c with h | h
  · simp [h]
  · have h126 : c ≤ 126 := by omega
    simp [h126]

/-- C9: the acceptable-character test `c >= ' ' || c <= '~'` of
`bchd_log_word` is true for every value, so the scan loop equals the
filter-free loop the spec describes (every scanned byte that is not a
space or newline is copied into the emitted word) and the cursor advances
exactly once per byte stored into the word. -/
theorem C9_filter_is_noop :
    (∀ c : Int, acceptable c = true) ∧
    (∀ (ch : Chunk) (pos fuel : Nat),
      scanWord ch pos fuel = scanWordSpec ch pos fuel) ∧
    (∀ (ch : Chunk) (pos fuel : Nat),
      (scanWord ch pos fuel).2 = (scanWord ch pos fuel).1.length) := by
  refine ⟨acceptable_always_true, ?_, ?_⟩
  · intro ch pos fuel
    induction fuel generalizing pos with
    | zero => rfl
    | succ f ih =>
      unfold scanWord scanWordSpec
      simp only [acceptable_always_true, if_true]
      by_cases h1 : toSigned (ch.getD pos 0) = 32 ∨
          toSigned (ch.getD pos 0) = 10
      · rw [if_pos h1, if_pos h1]
      · rw [if_neg h1, if_neg h1, ih (pos + 1)]
  · intro ch pos fuel
    induction fuel generalizing pos with
    | zero => rfl
    | succ f ih =>
      unfold scanWord
      simp only [acceptable_always_true, if_true]
      by_cases h1 : toSigned (ch.getD pos 0) = 32 ∨
          toSigned (ch.getD pos 0) = 10
      · rw [if_pos h1]
        rfl
      · rw [if_neg h1]
        simp only [List.length_cons]
        rw [ih (pos + 1)]

/-- C10: with `max_word_len ≤ BCHD_MAX_WORD_LEN = 20` (the default
configuration), every store into the tick's local word buffer is in
bounds: the emitted word holds at most 19 characters, so every index used
for word characters, the trailing separator space, and the final NUL
terminator (at index `w.length`) is strictly below 20. -/
theorem C10_word_buffer_in_bounds (dev : BchdDev) (oracle : List Bool)
    (w : List Nat) (hm : dev.max_word_len ≤ 20)
    (hw : (bchd_log_word dev oracle).emit = TickEmit.word w) :
    w.length + 1 ≤ 20 := by
  by_cases hsz : dev.size = 0
  · rw [bchd_log_word_size_zero dev oracle hsz] at hw
    simp at hw
  · set lp0 := if dev.log_pos + 1 ≥ dev.size then 0 else dev.log_pos
      with hlp0def
    set mc1 := if lp0 + dev.max_word_len > dev.size then dev.size - lp0
      else dev.max_word_len with hmc1def
    set qrem := dev.quantum_size -
      (resolve lp0 dev.quantum_size dev.qset_size).2.2 with hqremdef
    set mc2 := if mc1 > qrem then qrem else mc1 with hmc2def
    have hmc1m : mc1 ≤ dev.max_word_len := by
      rw [hmc1def]
      split <;> omega
    have hmc2 : mc2 ≤ mc1 := by
      rw [hmc2def]
      split <;> omega
    rcases hf : bchd_follow_ext dev.data
      ((resolve lp0 dev.quantum_size dev.qset_size).1 + 1) oracle
      with ⟨chain1, ok1, o1⟩
    cases ok1
    · have hwe : (bchd_log_word dev oracle).emit = TickEmit.skip := by
        simp only [bchd_log_word]
        rw [if_neg hsz, ← hlp0def, ← hmc1def]
        simp only [hf]
      rw [hwe] at hw
      simp at hw
    · rcases hc : chunkAt chain1
        (resolve lp0 dev.quantum_size dev.qset_size).1
        (resolve lp0 dev.quantum_size dev.qset_size).2.1 with _ | ch
      · have hwe : (bchd_log_word dev oracle).emit = TickEmit.skip := by
          simp only [bchd_log_word]
          rw [if_neg hsz, ← hlp0def, ← hmc1def]
          simp only [hf, hc]
        rw [hwe] at hw
        simp at hw
      · have hwe : (bchd_log_word dev oracle).emit = TickEmit.word
            (scanWord ch (resolve lp0 dev.quantum_size dev.qset_size).2.2
              (mc2 - 1)).1 := by
          simp only [bchd_log_word]
          rw [if_neg hsz, ← hlp0def, ← hmc1def, ← hqremdef, ← hmc2def]
          simp only [hf, hc]
        rw [hwe] at hw
        have hww : (scanWord ch
            (resolve lp0 dev.quantum_size dev.qset_size).2.2
            (mc2 - 1)).1 = w := by
          injection hw
        have hlen := scanWord_len_le (mc2 - 1) ch
          (resolve lp0 dev.quantum_size dev.qset_size).2.2
        rw [hww] at hlen
        omega

theorem C10_word_buffer_in_bounds_witness :
    (c4dev.max_word_len ≤ 20 ∧
     (bchd_log_word c4dev []).emit = TickEmit.word [5]) ∧
    ([5] : List Nat).length + 1 ≤ 20 :=
  ⟨⟨by decide, by decide⟩,
    C10_word_buffer_in_bounds c4dev [] [5] (by decide) (by decide)⟩

/-- The device obtained by writing two bytes at offset 4000 on a freshly
initialised device (default quantum 4000): `size` becomes 4002 while the
chunk for offsets 0..3999 (group 0, slot 0) is never allocated, so the
tokenizer cursor at 0 addresses an absent chunk. -/
def c7dev : BchdDev := (bchd_write bchd_init 4000 [104, 105] []).1

/-- C7: code_bug evidence.  At a reachable state whose cursor addresses an
absent chunk (a hole before `size`), the tick takes the `goto out` exit
path of `bchd_log_word` that lies before the `queue_delayed_work` call:
nothing is emitted and the cursor is unchanged (as the claim says), but
the next tick is NOT scheduled, so the periodic process stalls, contrary
to the claim that every exit path reschedules. -/
theorem C7_absent_slot_tick_does_not_reschedule :
    c7dev.size = 4002 ∧
    c7dev.log_pos = 0 ∧
    chunkAt c7dev.data 0 0 = none ∧
    (bchd_log_word c7dev []).emit = TickEmit.skip ∧
    (bchd_log_word c7dev []).dev.log_pos = 0 ∧
    (bchd_log_word c7dev []).rescheduled = false := by
  decide

/-- The twelve bytes of "hello world\n" as numeric character codes. -/
def hwBytes : List Nat := [104, 101, 108, 108, 111, 32, 119, 111, 114,
  108, 100, 10]

/-- A fresh device holding exactly "hello world\n" with the cursor at 0. -/
def c2dev : BchdDev := (bchd_write bchd_init 0 hwBytes []).1

def c2t1 : TickResult := bchd_log_word c2dev []

def c2t2 : TickResult := bchd_log_word c2t1.dev []

def c2t3 : TickResult := bchd_log_word c2t2.dev []

/-- C2 counterexample: the second tick does NOT emit "world " with a
trailing space (it emits "world" without one: the scan budget
`size - cursor = 6` allows only 5 bytes to be examined, so the final
newline is never consumed). -/
theorem C2_second_tick_no_trailing_space :
    c2t2.emit ≠ TickEmit.word [119, 111, 114, 108, 100, 32] := by
  decide

/-- C2 (amended): with the store holding exactly "hello world\n" and the
cursor at 0, the first tick emits "hello " (trailing space, cursor 6), the
second tick emits "world" (no trailing space -- the scan budget ends
before the newline is examined; cursor 11), and the third tick first
wraps the cursor to 0 (11 + 1 ≥ 12) and then emits "hello " again
(cursor 6). -/
theorem C2_amended_tokenizer_cycle :
    c2dev.size = 12 ∧
    c2dev.log_pos = 0 ∧
    c2t1.emit = TickEmit.word [104, 101, 108, 108, 111, 32] ∧
    c2t1.dev.log_pos = 6 ∧
    c2t2.emit = TickEmit.word [119, 111, 114, 108, 100] ∧
    c2t2.dev.log_pos = 11 ∧
    c2t3.emit = TickEmit.word [104, 101, 108, 108, 111, 32] ∧
    c2t3.dev.log_pos = 6 := by
  decide

theorem C1_round_trip_witness :
    (0 < bchd_init.quantum_size ∧ 0 < bchd_init.qset_size ∧
     wfB bchd_init = true) ∧
    (readAll 4 (writeAll 4 bchd_init 7 [9, 8, 7, 6]) 7 4).1 = [9, 8, 7, 6] :=
  ⟨⟨by decide, by decide, by decide⟩,
    C1_round_trip bchd_init 7 [9, 8, 7, 6] (by decide) (by decide)
      (by decide)⟩
